import Mathlib

/-!
Verification of the PDF module-extraction engine (`pdf_extractor.py`) and the
downstream credit-point coercion (`rdf_builder.py`).

Texts are modelled as `List Char`.  The concrete regular expressions of the
source are embedded as bespoke matcher functions with Python `re` semantics
(case-insensitive matching, greedy repetition with backtracking, leftmost
search, non-overlapping `finditer`).  All definitions are executable so that
concrete scenarios evaluate by `decide`.
-/

/-- Convert a string literal to the `List Char` representation used throughout. -/
def chars (s : String) : List Char := s.data

/-- Python `\s` for the ASCII range: space, tab, newline, carriage return,
vertical tab, form feed. -/
def isWS (c : Char) : Bool :=
  c = ' ' || c = '\t' || c = '\n' || c = '\r' || c = '\x0b' || c = '\x0c'

/-- The character class `[:\s]` used after every field label. -/
def isColonWS (c : Char) : Bool := c = ':' || isWS c

/-- Python `\d` for the ASCII range. -/
def isDigitC (c : Char) : Bool := '0' ≤ c && c ≤ '9'

/-- Case folding as performed by `re.IGNORECASE` on the characters occurring
in the source's patterns: ASCII letters plus the German umlauts. -/
def lowC (c : Char) : Char :=
  if c = 'Ä' then 'ä' else if c = 'Ö' then 'ö' else if c = 'Ü' then 'ü'
  else c.toLower

/-- Match a literal keyword (stored lowercase) case-insensitively at the head
of `l`; return the remainder on success. -/
def matchKw (kw : List Char) (l : List Char) : Option (List Char) :=
  match kw, l with
  | [], rest => some rest
  | _ :: _, [] => none
  | k :: ks, c :: cs => if lowC c = k then matchKw ks cs else none

/-- A pattern, as used by `re.search`/`re.finditer` at a fixed position:
given the text suffix starting at that position, return the text of capture
group 1 and the total length of the match, or `none`. -/
abbrev Pattern := List Char → Option (List Char × Nat)

/-- A keyword matcher: consume a label at the head of the suffix, returning
the number of characters consumed and the remainder. -/
abbrev KwMatcher := List Char → Option (Nat × List Char)

/-- Single-word label, e.g. `Modul`, `ECTS`, `Sprache`. -/
def kwSimple (kw : List Char) : KwMatcher := fun l =>
  (matchKw kw l).map (fun r => (kw.length, r))

/-- Two-word label joined by `\s+`, e.g. `Credit\s+Points`,
`Learning\s+Objectives`. -/
def kwTwoWords (w1 w2 : List Char) : KwMatcher := fun l =>
  match matchKw w1 l with
  | none => none
  | some r1 =>
    let run := r1.takeWhile isWS
    if run.length = 0 then none
    else
      match matchKw w2 (r1.drop run.length) with
      | none => none
      | some r2 => some (w1.length + run.length + w2.length, r2)

/-- Largest index `t` with `1 ≤ t < run.length` such that `run` does not hold
`'\n'` at `t`.  This is the backtracking step of `KW[:\s]+([^\n]+)` when the
greedy `[:\s]+` run reaches the end of the text: the `[:\s]+` part gives back
characters until the capture group `[^\n]+` can consume at least one. -/
def lastIdxNonNL (run : List Char) : Option Nat :=
  ((List.range run.length).filter
    (fun t => decide (1 ≤ t) && (run.getD t '\n' != '\n'))).getLast?

/-- The pattern `KW[:\s]+([^\n]+)` (with `re.IGNORECASE`): label, then a
greedy nonempty run of `[:\s]`, then capture the rest of the line.  The
look-ahead variants `KW[:\s]+([^\n]+(?:\n[^\n]+)*?)(?=\n[A-Z][^:]+:|$)` used
for block fields are extensionally equal to this pattern: the greedy first
`[^\n]+` always stops at a newline or at the end of the text, where the `$`
alternative of the look-ahead (with `re.MULTILINE`) succeeds at once, so the
lazy `(?:\n[^\n]+)*?` always matches zero repetitions. -/
def matchLineAt (kw : KwMatcher) : Pattern := fun l =>
  match kw l with
  | none => none
  | some (klen, rest) =>
    let run := rest.takeWhile isColonWS
    if run.length = 0 then none
    else
      match rest.drop run.length with
      | c :: cs =>
        let cap := (c :: cs).takeWhile (fun c => c != '\n')
        some (cap, klen + run.length + cap.length)
      | [] =>
        match lastIdxNonNL run with
        | some t =>
          let cap := (run.drop t).takeWhile (fun c => c != '\n')
          some (cap, klen + t + cap.length)
        | none => none

/-- The pattern `KW[:\s]+(\d+(?:[.,]\d+)?)`: label, nonempty `[:\s]` run,
then a digit run with an optional fractional part.  No backtracking arises:
no character is both in `[:\s]` and in `\d`. -/
def matchNumAt (kw : KwMatcher) : Pattern := fun l =>
  match kw l with
  | none => none
  | some (klen, rest) =>
    let run := rest.takeWhile isColonWS
    if run.length = 0 then none
    else
      let after := rest.drop run.length
      let d1 := after.takeWhile isDigitC
      if d1.length = 0 then none
      else
        match after.drop d1.length with
        | sep :: c2 :: rest2 =>
          if (sep = '.' || sep = ',') && isDigitC c2 then
            let d2 := (c2 :: rest2).takeWhile isDigitC
            some (d1 ++ sep :: d2, klen + run.length + d1.length + 1 + d2.length)
          else some (d1, klen + run.length + d1.length)
        | _ => some (d1, klen + run.length + d1.length)

/-- The pattern `KW[:\s]+(\d+)`: label, nonempty `[:\s]` run, digit run. -/
def matchKwIntAt (kw : List Char) : Pattern := fun l =>
  match kwSimple kw l with
  | none => none
  | some (klen, rest) =>
    let run := rest.takeWhile isColonWS
    if run.length = 0 then none
    else
      let after := rest.drop run.length
      let d1 := after.takeWhile isDigitC
      if d1.length = 0 then none
      else some (d1, klen + run.length + d1.length)

/-- Helper for `(\d+\.?\s*Semester)`: match `\s*Semester` at `r`, returning
the number of characters consumed. -/
def semTail (r : List Char) : Option Nat :=
  let w := r.takeWhile isWS
  match matchKw (chars "semester") (r.drop w.length) with
  | some _ => some (w.length + 8)
  | none => none

/-- The pattern `(\d+\.?\s*Semester)`: group 1 is the whole match. -/
def matchSem1At : Pattern := fun l =>
  let d := l.takeWhile isDigitC
  if d.length = 0 then none
  else
    match l.drop d.length with
    | '.' :: r2 =>
      match semTail r2 with
      | some n => some (l.take (d.length + 1 + n), d.length + 1 + n)
      | none =>
        match semTail (l.drop d.length) with
        | some n => some (l.take (d.length + n), d.length + n)
        | none => none
    | r1 =>
      match semTail r1 with
      | some n => some (l.take (d.length + n), d.length + n)
      | none => none

/-- Alternation of literal words, e.g. `(Vorlesung|Übung|Seminar|Praktikum|Projekt)`.
Alternatives are tried in the declared order; the capture keeps the original
case of the text. -/
def matchAltAt (words : List (List Char)) : Pattern := fun l =>
  match words with
  | [] => none
  | w :: ws =>
    if (matchKw w l).isSome then some (l.take w.length, w.length)
    else matchAltAt ws l

/-- Python `str.strip` on the left: drop leading whitespace. -/
def stripL (l : List Char) : List Char := l.dropWhile isWS

/-- Python `str.strip` on the right: drop trailing whitespace. -/
def stripR : List Char → List Char
  | [] => []
  | c :: cs =>
    match stripR cs with
    | [] => if isWS c then [] else [c]
    | r => c :: r

/-- Python `str.strip`: drop leading and trailing whitespace. -/
def pyStrip (l : List Char) : List Char := stripR (stripL l)

/-- Worker for `re.sub(r'\s+', ' ', ·)`.  The flag records whether the
previous character belonged to a whitespace run whose single replacement
space has already been emitted. -/
def collapseAux : Bool → List Char → List Char
  | _, [] => []
  | true, c :: cs =>
    if isWS c then collapseAux true cs else c :: collapseAux false cs
  | false, c :: cs =>
    if isWS c then ' ' :: collapseAux true cs else c :: collapseAux false cs

/-- `re.sub(r'\s+', ' ', ·)`: replace every maximal whitespace run by a
single space. -/
def pyCollapse (l : List Char) : List Char := collapseAux false l

/-- The normalization applied to every captured value in
`extract_module_info`: `value = match.group(1).strip()` followed by
`value = re.sub(r'\s+', ' ', value)`. -/
def pyNormalize (l : List Char) : List Char := pyCollapse (pyStrip l)

/-- `re.search`: return the position and capture of the leftmost match.
`fuel` bounds the scan; it is instantiated with `length + 1` so that every
start position, including the end of the text, is tried. -/
def searchFirst (p : Pattern) : Nat → List Char → Nat → Option (Nat × List Char)
  | 0, _, _ => none
  | fuel + 1, l, pos =>
    match p l with
    | some (cap, _) => some (pos, cap)
    | none =>
      match l with
      | [] => none
      | _ :: cs => searchFirst p fuel cs (pos + 1)

/-- The capture of the leftmost match of `p` in `s`, as used by `re.search`
inside `extract_module_info`. -/
def searchCap (p : Pattern) (s : List Char) : Option (List Char) :=
  (searchFirst p (s.length + 1) s 0).map (fun pc => pc.2)

/-- `re.finditer`: all non-overlapping matches, scanning left to right and
resuming after each match. -/
def scanIter (p : Pattern) : Nat → List Char → Nat → List (Nat × List Char)
  | 0, _, _ => []
  | fuel + 1, l, pos =>
    match p l with
    | some (cap, len) => (pos, cap) :: scanIter p fuel (l.drop len) (pos + len)
    | none =>
      match l with
      | [] => []
      | _ :: cs => scanIter p fuel cs (pos + 1)

/-- `r'Modul[:\s]+([^\n]+)'` — the direct record marker of both strategies
and the first `modul_name` pattern. -/
def matchModulAt : Pattern := matchLineAt (kwSimple (chars "modul"))

/-- `r'ECTS[:\s]+(\d+(?:[.,]\d+)?)'` — the secondary marker and the first
`ects` pattern. -/
def matchEctsAt : Pattern := matchNumAt (kwSimple (chars "ects"))

/-- `MODULE_PATTERNS['modul_name']`. -/
def modulNamePatterns : List Pattern :=
  [matchModulAt,
   matchLineAt (kwSimple (chars "modulbezeichnung")),
   matchLineAt (kwSimple (chars "modulname"))]

/-- `MODULE_PATTERNS['ects']`. -/
def ectsPatterns : List Pattern :=
  [matchEctsAt,
   matchNumAt (kwSimple (chars "leistungspunkte")),
   matchNumAt (kwTwoWords (chars "credit") (chars "points")),
   matchNumAt (kwSimple (chars "lp"))]

/-- `MODULE_PATTERNS['semester']`. -/
def semesterPatterns : List Pattern :=
  [matchSem1At, matchKwIntAt (chars "semester"), matchKwIntAt (chars "studienjahr")]

/-- `MODULE_PATTERNS['veranstaltungsart']`. -/
def veranstaltungsartPatterns : List Pattern :=
  [matchLineAt (kwSimple (chars "veranstaltungsart")),
   matchLineAt (kwSimple (chars "art")),
   matchAltAt [chars "vorlesung", chars "übung", chars "seminar",
               chars "praktikum", chars "projekt"]]

/-- `MODULE_PATTERNS['sprache']`. -/
def sprachePatterns : List Pattern :=
  [matchLineAt (kwSimple (chars "sprache")),
   matchLineAt (kwSimple (chars "language"))]

/-- `MODULE_PATTERNS['voraussetzungen']`. -/
def voraussetzungenPatterns : List Pattern :=
  [matchLineAt (kwSimple (chars "voraussetzungen")),
   matchLineAt (kwSimple (chars "prerequisites")),
   matchLineAt (kwSimple (chars "vorkenntnisse"))]

/-- `MODULE_PATTERNS['inhalte']`. -/
def inhaltePatterns : List Pattern :=
  [matchLineAt (kwSimple (chars "inhalt")),
   matchLineAt (kwSimple (chars "inhalte")),
   matchLineAt (kwSimple (chars "content"))]

/-- `MODULE_PATTERNS['lernziele']`. -/
def lernzielePatterns : List Pattern :=
  [matchLineAt (kwSimple (chars "lernziele")),
   matchLineAt (kwTwoWords (chars "learning") (chars "objectives")),
   matchLineAt (kwSimple (chars "ziele"))]

/-- `MODULE_PATTERNS['prüfung']`. -/
def pruefungPatterns : List Pattern :=
  [matchLineAt (kwSimple (chars "prüfung")),
   matchLineAt (kwSimple (chars "prüfungsform")),
   matchLineAt (kwSimple (chars "examination"))]

/-- The inner loop of `extract_module_info` for one field: try the patterns
in declared order; a pattern whose normalized value is empty does not stop
the loop; the first nonempty normalized value wins. -/
def tryPatterns (block : List Char) : List Pattern → Option (List Char)
  | [] => none
  | p :: ps =>
    match searchCap p block with
    | some cap =>
      if (pyNormalize cap).isEmpty then tryPatterns block ps
      else some (pyNormalize cap)
    | none => tryPatterns block ps

/-- The record assembled by `extract_module_info` before the acceptance
check.  Field values are `none` for absent fields, mirroring the `None`
initialisation of `module_info`. -/
structure ModuleInfo where
  modul_name : Option (List Char)
  ects : Option (List Char)
  semester : Option (List Char)
  veranstaltungsart : Option (List Char)
  sprache : Option (List Char)
  voraussetzungen : Option (List Char)
  inhalte : Option (List Char)
  lernziele : Option (List Char)
  pruefung : Option (List Char)
  raw_text : List Char
  deriving DecidableEq, Repr

/-- The field-resolution phase of `extract_module_info`: `modul_name` starts
from `default_name` and may be overwritten by a pattern; all other fields
start from `None`; `raw_text` keeps the first 2000 characters of the span. -/
def resolvedFields (block : List Char) (default_name : Option (List Char)) :
    ModuleInfo where
  modul_name :=
    match tryPatterns block modulNamePatterns with
    | some v => some v
    | none => default_name
  ects := tryPatterns block ectsPatterns
  semester := tryPatterns block semesterPatterns
  veranstaltungsart := tryPatterns block veranstaltungsartPatterns
  sprache := tryPatterns block sprachePatterns
  voraussetzungen := tryPatterns block voraussetzungenPatterns
  inhalte := tryPatterns block inhaltePatterns
  lernziele := tryPatterns block lernzielePatterns
  pruefung := tryPatterns block pruefungPatterns
  raw_text := block.take 2000

/-- Python truthiness of an optional string: `None` and `""` are falsy. -/
def truthyS : Option (List Char) → Bool
  | none => false
  | some s => !s.isEmpty

/-- `extract_module_info`: resolve the fields, then keep the record only if
`module_info['modul_name'] or module_info['ects']` is truthy. -/
def extract_module_info (block : List Char) (default_name : Option (List Char)) :
    Option ModuleInfo :=
  let mi := resolvedFields block default_name
  if truthyS mi.modul_name || truthyS mi.ects then some mi else none

/-- The `'type'` tag of a candidate start. -/
inductive StartType where
  | modul_keyword
  | ects_near_modul
  deriving DecidableEq, Repr

/-- One entry of `potential_starts`. -/
structure Candidate where
  position : Nat
  ctype : StartType
  name : List Char
  deriving DecidableEq, Repr

/-- All matches of the direct marker `Modul[:\s]+([^\n]+)` (strategy 1). -/
def modulMatches (text : List Char) : List (Nat × List Char) :=
  scanIter matchModulAt (text.length + 1) text 0

/-- All matches of the secondary marker `ECTS[:\s]+(\d+(?:[.,]\d+)?)`
(strategy 2). -/
def ectsMatches (text : List Char) : List (Nat × List Char) :=
  scanIter matchEctsAt (text.length + 1) text 0

/-- `text[max(0, occ-500):occ]` — the backward window inspected for an ECTS
occurrence at position `occ`. -/
def window (text : List Char) (occ : Nat) : List Char :=
  (text.drop (occ - 500)).take (occ - (occ - 500))

/-- The candidate contributed by one ECTS occurrence: `re.search` the direct
marker in the backward window; on success emit a candidate at the absolute
position of that (leftmost) window match, carrying its stripped capture. -/
def proxOf (text : List Char) (occ : Nat) : Option Candidate :=
  match searchFirst matchModulAt ((window text occ).length + 1) (window text occ) 0 with
  | some (i, g) => some ⟨(occ - 500) + i, StartType.ects_near_modul, pyStrip g⟩
  | none => none

/-- `potential_starts`: all direct-marker candidates followed by all
proximity candidates, in scan order. -/
def potentialStarts (text : List Char) : List Candidate :=
  (modulMatches text).map (fun pc => ⟨pc.1, StartType.modul_keyword, pyStrip pc.2⟩)
    ++ (ectsMatches text).filterMap (fun pc => proxOf text pc.1)

/-- Stable insertion: `c` is placed before the first element whose position
is not smaller, so elements with equal positions keep their original order. -/
def insertByPos (c : Candidate) : List Candidate → List Candidate
  | [] => [c]
  | d :: ds => if d.position < c.position then d :: insertByPos c ds else c :: d :: ds

/-- `potential_starts.sort(key=lambda x: x['position'])` — a stable sort by
position, as guaranteed by Python's list sort. -/
def sortByPos : List Candidate → List Candidate
  | [] => []
  | c :: cs => insertByPos c (sortByPos cs)

/-- The end of the current candidate's span: the next candidate's position,
or the end of the text for the last candidate. -/
def spanEnd (text : List Char) : List Candidate → Nat
  | [] => text.length
  | d :: _ => d.position

/-- Span derivation and per-span extraction: for each candidate the span ends
at the next candidate's position (or at the end of the text), and the span's
record, if accepted, is appended together with the span's start position. -/
def assemble (text : List Char) : List Candidate → List (Nat × ModuleInfo)
  | [] => []
  | c :: rest =>
    match extract_module_info
        ((text.drop c.position).take (spanEnd text rest - c.position))
        (some c.name) with
    | some mi => (c.position, mi) :: assemble text rest
    | none => assemble text rest

/-- `find_module_blocks`, instrumented with the start position of the span
each record was extracted from. -/
def findModuleBlocksPos (text : List Char) : List (Nat × ModuleInfo) :=
  assemble text (sortByPos (potentialStarts text))

/-- `find_module_blocks`: the accepted records, in assembly order. -/
def find_module_blocks (text : List Char) : List ModuleInfo :=
  (findModuleBlocksPos text).map Prod.snd

/-- Worker for the digit part of Python `int(str)`: digits with single
underscores allowed only between digits.  The flag records that the previous
character was an underscore, which must be followed by a digit. -/
def digUAux : Nat → Bool → List Char → Option Nat
  | _, true, [] => none
  | acc, false, [] => some acc
  | acc, true, c :: cs =>
    if isDigitC c then digUAux (acc * 10 + (c.toNat - 48)) false cs else none
  | acc, false, c :: cs =>
    if isDigitC c then digUAux (acc * 10 + (c.toNat - 48)) false cs
    else if c = '_' then digUAux acc true cs
    else none

/-- The digit part of Python `int(str)`: a nonempty digit sequence, possibly
with single underscores between digits. -/
def digU : List Char → Option Nat
  | [] => none
  | c :: cs => if isDigitC c then digUAux (c.toNat - 48) false cs else none

/-- Python `int(str)`: strip whitespace, optional sign, then digits (with
underscore grouping); any other character raises `ValueError`, modelled as
`none`. -/
def pyInt (s : List Char) : Option Int :=
  match pyStrip s with
  | [] => none
  | c :: rest =>
    if c = '+' then (digU rest).map Int.ofNat
    else if c = '-' then (digU rest).map (fun n => -(Int.ofNat n : Int))
    else (digU (c :: rest)).map Int.ofNat

/-- The numeric value of a digit string. -/
def digitsToNat (s : List Char) : Nat :=
  s.foldl (fun a c => a * 10 + (c.toNat - 48)) 0

/-- The `# Parse ECTS` step of `extract_courses_from_json` in
`rdf_builder.py` for PDF modules: `ects = None; if ects_raw: try: ects =
int(ects_raw) except (ValueError, TypeError): pass`. -/
def parseEcts : Option (List Char) → Option Int
  | none => none
  | some s => if s.isEmpty then none else pyInt s

/-- The statistics block of an `extract_from_pdf` result. -/
structure PdfStats where
  total_modules_found : Nat
  modules_with_ects : Nat
  modules_with_name : Nat
  deriving DecidableEq, Repr

/-- A per-document result of `extract_from_pdf`: the `modules` and
`statistics` keys are absent (`none`) exactly when the source file is
missing, and the `error` key is present exactly when the document failed. -/
structure PdfResult where
  source_file : List Char
  modules : Option (List ModuleInfo)
  statistics : Option PdfStats
  error : Option (List Char)
  deriving DecidableEq, Repr

/-- The outcome of locating and text-extracting one PDF document, the
effectful part of `extract_from_pdf`: the file may be missing, the text
extraction may raise, or the decoded text is available. -/
inductive PdfSource where
  | missing
  | unreadable (msg : List Char)
  | ok (text : List Char)
  deriving DecidableEq, Repr

/-- `extract_from_pdf`: a missing file returns an error object with only the
source file and the error message; an extraction failure is caught by the
`except` clause, which records the error on the initial result (empty module
list, zero statistics); otherwise the modules and statistics are filled in.
No branch raises. -/
def extract_from_pdf (pdf_path : List Char) (src : PdfSource) : PdfResult :=
  match src with
  | PdfSource.missing =>
    { source_file := pdf_path, modules := none, statistics := none,
      error := some (chars "Datei nicht gefunden: " ++ pdf_path) }
  | PdfSource.unreadable msg =>
    { source_file := pdf_path, modules := some [], statistics := some ⟨0, 0, 0⟩,
      error := some (chars "Fehler beim Extrahieren von Text aus PDF: " ++ msg) }
  | PdfSource.ok text =>
    let ms := find_module_blocks text
    { source_file := pdf_path,
      modules := some ms,
      statistics := some ⟨ms.length,
        ms.countP (fun m => truthyS m.ects),
        ms.countP (fun m => truthyS m.modul_name)⟩,
      error := none }

/-- The batch loop of `run_pdf_extraction` in `run_extraction.py`: each
document is processed independently and contributes one entry to the result
mapping, whether it succeeded or failed. -/
def run_pdf_extraction (docs : List (List Char × PdfSource)) :
    List (List Char × PdfResult) :=
  docs.map (fun d => (d.1, extract_from_pdf d.1 d.2))

/-- The first character, if any, is not whitespace. -/
def noHeadWS : List Char → Prop
  | [] => True
  | c :: _ => isWS c = false

/-- The last character, if any, is not whitespace. -/
def noTrailWS : List Char → Prop
  | [] => True
  | [c] => isWS c = false
  | _ :: c :: cs => noTrailWS (c :: cs)

/-- Every whitespace character is a plain space. -/
def wsOnlySpace (l : List Char) : Prop := ∀ c ∈ l, isWS c = true → c = ' '

/-- No two adjacent whitespace characters. -/
def noTwoWS : List Char → Prop
  | [] => True
  | [_] => True
  | a :: b :: cs => ¬(isWS a = true ∧ isWS b = true) ∧ noTwoWS (b :: cs)

/-- The two-module scenario text of the specification. -/
def textC2 : List Char :=
  chars "Modul: Lineare Algebra\n...\nECTS: 9\nModul: Analysis\n...\nECTS: 6\n"

/-- A single module whose direct marker is also rediscovered by the
proximity strategy, so two boundaries land at position 0. -/
def textC3 : List Char := chars "Modul: Lineare Algebra\nECTS: 9\n"

/-- Two direct markers inside the backward window of one ECTS occurrence. -/
def textC4 : List Char := chars "Modul: A\nModul: B\nECTS: 5"

/-- The record produced from a zero-length span seeded with
`"Lineare Algebra"`. -/
def miLA : ModuleInfo :=
  { modul_name := some (chars "Lineare Algebra"), ects := none,
    semester := none, veranstaltungsart := none, sprache := none,
    voraussetzungen := none, inhalte := none, lernziele := none,
    pruefung := none, raw_text := [] }

/-- The span used in the C6 counterexample: the higher-priority `Sprache`
pattern matches at the end of the span with a whitespace-only capture, the
lower-priority `Language` pattern matches with `"Deutsch"`. -/
def blockC6 : List Char := chars "Language: Deutsch\nECTS: 3\nSprache: "

/-- The two-document batch used as C8's witness: one missing file, one
readable document. -/
def docsC8 : List (List Char × PdfSource) :=
  [(chars "a.pdf", PdfSource.missing), (chars "b.pdf", PdfSource.ok textC3)]

theorem collapseAux_eq_nil (l : List Char) :
    ∀ b, collapseAux b l = [] → ∀ c ∈ l, isWS c = true := by
  induction l with
  | nil => intro b _ c hc; cases hc
  | cons c cs ih =>
    intro b h x hx
    cases hw : isWS c with
    | false => cases b <;> simp [collapseAux, hw] at h
    | true =>
      cases b with
      | false => simp [collapseAux, hw] at h
      | true =>
        simp [collapseAux, hw] at h
        rcases List.mem_cons.mp hx with rfl | hmem
        · exact hw
        · exact ih true h x hmem

theorem noHeadWS_collapseAux_true (l : List Char) :
    noHeadWS (collapseAux true l) := by
  induction l with
  | nil => trivial
  | cons c cs ih =>
    cases hw : isWS c with
    | false => simp [collapseAux, hw, noHeadWS]
    | true => simpa [collapseAux, hw] using ih

theorem noHeadWS_collapseAux_false (l : List Char) (h : noHeadWS l) :
    noHeadWS (collapseAux false l) := by
  cases l with
  | nil => trivial
  | cons c cs =>
    have hw : isWS c = false := h
    simp [collapseAux, hw, noHeadWS]

theorem wsOnlySpace_collapseAux (l : List Char) :
    ∀ b, wsOnlySpace (collapseAux b l) := by
  induction l with
  | nil => intro b c hc; cases b <;> cases hc
  | cons c cs ih =>
    intro b x hx hxws
    cases hw : isWS c with
    | false =>
      have hred : collapseAux b (c :: cs) = c :: collapseAux false cs := by
        cases b <;> simp [collapseAux, hw]
      rw [hred] at hx
      rcases List.mem_cons.mp hx with rfl | hmem
      · rw [hw] at hxws; cases hxws
      · exact ih false x hmem hxws
    | true =>
      cases b with
      | false =>
        have hred : collapseAux false (c :: cs) = ' ' :: collapseAux true cs := by
          simp [collapseAux, hw]
        rw [hred] at hx
        rcases List.mem_cons.mp hx with rfl | hmem
        · rfl
        · exact ih true x hmem hxws
      | true =>
        have hred : collapseAux true (c :: cs) = collapseAux true cs := by
          simp [collapseAux, hw]
        rw [hred] at hx
        exact ih true x hx hxws

theorem noTwoWS_collapseAux (l : List Char) : ∀ b, noTwoWS (collapseAux b l) := by
  induction l with
  | nil => intro b; cases b <;> trivial
  | cons c cs ih =>
    intro b
    cases hw : isWS c with
    | false =>
      have hred : collapseAux b (c :: cs) = c :: collapseAux false cs := by
        cases b <;> simp [collapseAux, hw]
      rw [hred]
      have htail := ih false
      cases hX : collapseAux false cs with
      | nil => trivial
      | cons x xs =>
        rw [hX] at htail
        refine ⟨fun hcon => ?_, htail⟩
        rw [hw] at hcon
        cases hcon.1
    | true =>
      cases b with
      | false =>
        have hhead := noHeadWS_collapseAux_true cs
        have htail := ih true
        rw [show collapseAux false (c :: cs) = ' ' :: collapseAux true cs from by
          simp [collapseAux, hw]]
        cases hX : collapseAux true cs with
        | nil => trivial
        | cons x xs =>
          rw [hX] at hhead htail
          have hxw : isWS x = false := hhead
          refine ⟨fun hcon => ?_, htail⟩
          rw [hxw] at hcon
          cases hcon.2
      | true =>
        rw [show collapseAux true (c :: cs) = collapseAux true cs from by
          simp [collapseAux, hw]]
        exact ih true

theorem noTrailWS_nonWS_mem (l : List Char) (hne : l ≠ []) (h : noTrailWS l) :
    ∃ c ∈ l, isWS c = false := by
  induction l with
  | nil => exact absurd rfl hne
  | cons c cs ih =>
    cases cs with
    | nil => exact ⟨c, List.mem_cons_self c [], h⟩
    | cons c2 cs2 =>
      obtain ⟨x, hx, hxw⟩ := ih (by simp) h
      exact ⟨x, List.mem_cons_of_mem c hx, hxw⟩

theorem collapseAux_ne_nil (l : List Char) (b : Bool) (hne : l ≠ [])
    (h : noTrailWS l) : collapseAux b l ≠ [] := by
  intro hnil
  obtain ⟨x, hx, hxw⟩ := noTrailWS_nonWS_mem l hne h
  rw [collapseAux_eq_nil l b hnil x hx] at hxw
  cases hxw

theorem noTrailWS_collapseAux (l : List Char) (h : noTrailWS l) :
    ∀ b, noTrailWS (collapseAux b l) := by
  induction l with
  | nil => intro b; cases b <;> trivial
  | cons c cs ih =>
    intro b
    cases cs with
    | nil =>
      have hw : isWS c = false := h
      cases b <;> simp [collapseAux, hw, noTrailWS]
    | cons c2 cs2 =>
      have htail : noTrailWS (c2 :: cs2) := h
      have hne : (c2 :: cs2 : List Char) ≠ [] := by simp
      cases hw : isWS c with
      | false =>
        have hred : collapseAux b (c :: c2 :: cs2) = c :: collapseAux false (c2 :: cs2) := by
          cases b <;> simp [collapseAux, hw]
        rw [hred]
        have hrec := ih htail false
        cases hX : collapseAux false (c2 :: cs2) with
        | nil => exact absurd hX (collapseAux_ne_nil _ false hne htail)
        | cons x xs => rw [hX] at hrec; exact hrec
      | true =>
        cases b with
        | false =>
          rw [show collapseAux false (c :: c2 :: cs2)
              = ' ' :: collapseAux true (c2 :: cs2) from by simp [collapseAux, hw]]
          have hrec := ih htail true
          cases hX : collapseAux true (c2 :: cs2) with
          | nil => exact absurd hX (collapseAux_ne_nil _ true hne htail)
          | cons x xs => rw [hX] at hrec; exact hrec
        | true =>
          rw [show collapseAux true (c :: c2 :: cs2)
              = collapseAux true (c2 :: cs2) from by simp [collapseAux, hw]]
          exact ih htail true

theorem collapseAux_fixed (l : List Char) (hsp : wsOnlySpace l) (h2 : noTwoWS l) :
    collapseAux false l = l ∧ (noHeadWS l → collapseAux true l = l) := by
  induction l with
  | nil => exact ⟨rfl, fun _ => rfl⟩
  | cons c cs ih =>
    have hsp' : wsOnlySpace cs := fun x hx hw => hsp x (List.mem_cons_of_mem c hx) hw
    have h2' : noTwoWS cs := by
      cases cs with
      | nil => trivial
      | cons c2 cs2 => exact h2.2
    obtain ⟨ihf, iht⟩ := ih hsp' h2'
    cases hw : isWS c with
    | false =>
      constructor
      · simp [collapseAux, hw, ihf]
      · intro _; simp [collapseAux, hw, ihf]
    | true =>
      have hc : c = ' ' := hsp c (List.mem_cons_self c cs) hw
      constructor
      · rw [show collapseAux false (c :: cs) = ' ' :: collapseAux true cs from by
          simp [collapseAux, hw]]
        cases cs with
        | nil => rw [hc]; rfl
        | cons c2 cs2 =>
          have hnw2 : isWS c2 = false := by
            cases hw2 : isWS c2 with
            | false => rfl
            | true => exact absurd ⟨hw, hw2⟩ h2.1
          rw [iht hnw2, hc]
      · intro hhead
        have hf : isWS c = false := hhead
        rw [hw] at hf
        cases hf

theorem stripR_cons (c : Char) (cs : List Char) :
    stripR (c :: cs) = match stripR cs with
      | [] => if isWS c then [] else [c]
      | r => c :: r := rfl

theorem noHeadWS_stripL (l : List Char) : noHeadWS (stripL l) := by
  induction l with
  | nil => trivial
  | cons c cs ih =>
    cases hw : isWS c with
    | false => simp [stripL, List.dropWhile_cons, hw, noHeadWS]
    | true => simpa [stripL, List.dropWhile_cons, hw] using ih

theorem stripL_of_noHeadWS (l : List Char) (h : noHeadWS l) : stripL l = l := by
  cases l with
  | nil => rfl
  | cons c cs =>
    have hw : isWS c = false := h
    simp [stripL, List.dropWhile_cons, hw]

theorem noTrailWS_stripR (l : List Char) : noTrailWS (stripR l) := by
  induction l with
  | nil => trivial
  | cons c cs ih =>
    cases hr : stripR cs with
    | nil =>
      rw [stripR_cons, hr]
      cases hw : isWS c with
      | false => simp [hw, noTrailWS]
      | true => simp [hw, noTrailWS]
    | cons x xs =>
      rw [stripR_cons, hr]
      rw [hr] at ih
      exact ih

theorem stripR_of_noTrailWS (l : List Char) (h : noTrailWS l) : stripR l = l := by
  induction l with
  | nil => rfl
  | cons c cs ih =>
    cases cs with
    | nil =>
      have hw : isWS c = false := h
      simp [stripR, hw]
    | cons c2 cs2 =>
      have htail : noTrailWS (c2 :: cs2) := h
      have hrec : stripR (c2 :: cs2) = c2 :: cs2 := ih htail
      rw [stripR_cons, hrec]

theorem noHeadWS_stripR (l : List Char) (h : noHeadWS l) : noHeadWS (stripR l) := by
  cases l with
  | nil => trivial
  | cons c cs =>
    have hw : isWS c = false := h
    cases hr : stripR cs with
    | nil => rw [stripR_cons, hr]; simp [hw, noHeadWS]
    | cons x xs => rw [stripR_cons, hr]; exact hw

theorem pyNormalize_idem_aux (l : List Char) :
    pyNormalize (pyNormalize l) = pyNormalize l := by
  have hhead : noHeadWS (pyNormalize l) :=
    noHeadWS_collapseAux_false (pyStrip l)
      (noHeadWS_stripR (stripL l) (noHeadWS_stripL l))
  have htrail : noTrailWS (pyNormalize l) :=
    noTrailWS_collapseAux (pyStrip l) (noTrailWS_stripR (stripL l)) false
  have hsp : wsOnlySpace (pyNormalize l) := wsOnlySpace_collapseAux (pyStrip l) false
  have h2 : noTwoWS (pyNormalize l) := noTwoWS_collapseAux (pyStrip l) false
  show pyCollapse (pyStrip (pyNormalize l)) = pyNormalize l
  rw [pyStrip, stripL_of_noHeadWS _ hhead, stripR_of_noTrailWS _ htrail]
  exact (collapseAux_fixed _ hsp h2).1

theorem searchFirst_some_spec (p : Pattern) :
    ∀ fuel rem pos i cap, rem.length < fuel →
      searchFirst p fuel rem pos = some (i, cap) →
      pos ≤ i ∧ (∃ n, p (rem.drop (i - pos)) = some (cap, n)) ∧
        ∀ j < i - pos, p (rem.drop j) = none := by
  intro fuel
  induction fuel with
  | zero => intro rem pos i cap hlen h; simp [searchFirst] at h
  | succ fuel ih =>
    intro rem pos i cap hlen h
    cases hp : p rem with
    | some pr =>
      obtain ⟨cap', n⟩ := pr
      simp [searchFirst, hp] at h
      obtain ⟨rfl, rfl⟩ := h
      refine ⟨le_refl _, ⟨n, by simpa using hp⟩, ?_⟩
      intro j hj
      exact absurd hj (by omega)
    | none =>
      cases rem with
      | nil => simp [searchFirst, hp] at h
      | cons c cs =>
        have h' : searchFirst p fuel cs (pos + 1) = some (i, cap) := by
          simpa [searchFirst, hp] using h
        have hlen' : cs.length < fuel := by
          simp at hlen; omega
        obtain ⟨hle, ⟨n, hpn⟩, hnone⟩ := ih cs (pos + 1) i cap hlen' h'
        refine ⟨by omega, ⟨n, ?_⟩, ?_⟩
        · have hi : i - pos = (i - (pos + 1)) + 1 := by omega
          rw [hi, List.drop_succ_cons]
          exact hpn
        · intro j hj
          cases j with
          | zero => simpa using hp
          | succ j' =>
            have hj' : j' < i - (pos + 1) := by omega
            rw [List.drop_succ_cons]
            exact hnone j' hj'

theorem searchFirst_none_spec (p : Pattern) (hnil : p [] = none) :
    ∀ fuel rem pos, rem.length < fuel →
      searchFirst p fuel rem pos = none → ∀ j, p (rem.drop j) = none := by
  intro fuel
  induction fuel with
  | zero => intro rem pos hlen; omega
  | succ fuel ih =>
    intro rem pos hlen h j
    cases hp : p rem with
    | some pr => simp [searchFirst, hp] at h
    | none =>
      cases rem with
      | nil => simpa [List.drop_nil] using hnil
      | cons c cs =>
        have h' : searchFirst p fuel cs (pos + 1) = none := by
          simpa [searchFirst, hp] using h
        have hlen' : cs.length < fuel := by simp at hlen; omega
        cases j with
        | zero => simpa using hp
        | succ j' =>
          rw [List.drop_succ_cons]
          exact ih cs (pos + 1) hlen' h' j'

theorem mem_insertByPos (c x : Candidate) (l : List Candidate) :
    x ∈ insertByPos c l ↔ x = c ∨ x ∈ l := by
  induction l with
  | nil => simp [insertByPos]
  | cons d ds ih =>
    by_cases h : d.position < c.position
    · simp only [insertByPos, if_pos h, List.mem_cons, ih]
      tauto
    · simp only [insertByPos, if_neg h, List.mem_cons]

theorem sorted_insertByPos (c : Candidate) (l : List Candidate)
    (h : l.Sorted (fun a b : Candidate => a.position ≤ b.position)) :
    (insertByPos c l).Sorted (fun a b : Candidate => a.position ≤ b.position) := by
  induction l with
  | nil => simp [insertByPos]
  | cons d ds ih =>
    have hd := List.sorted_cons.mp h
    by_cases hlt : d.position < c.position
    · simp only [insertByPos, if_pos hlt]
      rw [List.sorted_cons]
      refine ⟨?_, ih hd.2⟩
      intro b hb
      rcases (mem_insertByPos c b ds).mp hb with rfl | hmem
      · exact le_of_lt hlt
      · exact hd.1 b hmem
    · simp only [insertByPos, if_neg hlt]
      rw [List.sorted_cons]
      refine ⟨?_, h⟩
      intro b hb
      rcases List.mem_cons.mp hb with rfl | hmem
      · exact le_of_not_lt hlt
      · exact le_trans (le_of_not_lt hlt) (hd.1 b hmem)

theorem sortByPos_sorted (l : List Candidate) :
    (sortByPos l).Sorted (fun a b : Candidate => a.position ≤ b.position) := by
  induction l with
  | nil => simp [sortByPos]
  | cons c cs ih => exact sorted_insertByPos c (sortByPos cs) ih

theorem assemble_map_fst_sublist (text : List Char) :
    ∀ cs : List Candidate,
      ((assemble text cs).map Prod.fst).Sublist (cs.map Candidate.position) := by
  intro cs
  induction cs with
  | nil => simp [assemble]
  | cons c rest ih =>
    cases hx : extract_module_info
        ((text.drop c.position).take (spanEnd text rest - c.position))
        (some c.name) with
    | some mi =>
      simp only [assemble, hx, List.map_cons]
      exact List.Sublist.cons₂ c.position ih
    | none =>
      simp only [assemble, hx, List.map_cons]
      exact List.Sublist.cons c.position ih

theorem extract_some_name (block : List Char) (d : List Char) (mi : ModuleInfo)
    (h : extract_module_info block (some d) = some mi) : mi.modul_name.isSome := by
  by_cases hc : (truthyS (resolvedFields block (some d)).modul_name
      || truthyS (resolvedFields block (some d)).ects) = true
  · simp only [extract_module_info, hc, if_true, Option.some.injEq] at h
    subst h
    cases ht : tryPatterns block modulNamePatterns with
    | some v => simp [resolvedFields, ht]
    | none => simp [resolvedFields, ht]
  · simp only [extract_module_info, hc, if_false] at h
    cases h

theorem assemble_name_isSome (text : List Char) :
    ∀ (cs : List Candidate) (pr : Nat × ModuleInfo), pr ∈ assemble text cs →
      pr.2.modul_name.isSome := by
  intro cs
  induction cs with
  | nil => intro pr hpr; simp [assemble] at hpr
  | cons c rest ih =>
    intro pr hpr
    cases hx : extract_module_info
        ((text.drop c.position).take (spanEnd text rest - c.position))
        (some c.name) with
    | some mi =>
      simp only [assemble, hx] at hpr
      rcases List.mem_cons.mp hpr with rfl | hmem
      · exact extract_some_name _ _ _ hx
      · exact ih pr hmem
    | none =>
      simp only [assemble, hx] at hpr
      exact ih pr hpr

theorem digUAux_none_of_bad (l : List Char) :
    ∀ (acc : Nat) (u : Bool) (c0 : Char), c0 ∈ l → isDigitC c0 = false →
      c0 ≠ '_' → digUAux acc u l = none := by
  induction l with
  | nil => intro acc u c0 hmem; cases hmem
  | cons c cs ih =>
    intro acc u c0 hmem hd hu
    rcases List.mem_cons.mp hmem with rfl | hmem
    · cases u with
      | true => simp [digUAux, hd]
      | false => simp [digUAux, hd, hu]
    · cases u with
      | true =>
        cases hdc : isDigitC c with
        | false => simp [digUAux, hdc]
        | true => simp only [digUAux, hdc, if_true]; exact ih _ false c0 hmem hd hu
      | false =>
        cases hdc : isDigitC c with
        | false =>
          by_cases hc : c = '_'
          · simp only [digUAux, hdc, hc, if_false, if_true]
            exact ih _ true c0 hmem hd hu
          · simp [digUAux, hdc, hc]
        | true => simp only [digUAux, hdc, if_true]; exact ih _ false c0 hmem hd hu

theorem digU_none_of_bad (l : List Char) (c0 : Char) (hmem : c0 ∈ l)
    (hd : isDigitC c0 = false) (hu : c0 ≠ '_') : digU l = none := by
  cases l with
  | nil => cases hmem
  | cons c cs =>
    rcases List.mem_cons.mp hmem with rfl | hmem
    · simp [digU, hd]
    · cases hdc : isDigitC c with
      | false => simp [digU, hdc]
      | true =>
        simp only [digU, hdc, if_true]
        exact digUAux_none_of_bad cs _ false c0 hmem hd hu

theorem digUAux_digits (l : List Char) :
    ∀ acc : Nat, (∀ c ∈ l, isDigitC c = true) →
      digUAux acc false l = some (l.foldl (fun a c => a * 10 + (c.toNat - 48)) acc) := by
  induction l with
  | nil => intro acc _; rfl
  | cons c cs ih =>
    intro acc h
    have hd : isDigitC c = true := h c (List.mem_cons_self c cs)
    simp only [digUAux, hd, if_true, List.foldl_cons]
    exact ih _ (fun x hx => h x (List.mem_cons_of_mem c hx))

theorem isWS_eq_false_of_isDigitC (c : Char) (h : isDigitC c = true) :
    isWS c = false := by
  cases hw : isWS c with
  | false => rfl
  | true =>
    simp only [isWS, Bool.or_eq_true, decide_eq_true_eq] at hw
    rcases hw with ((((rfl | rfl) | rfl) | rfl) | rfl) | rfl <;> exact absurd h (by decide)

theorem mem_stripL_of_nonWS (l : List Char) (c0 : Char) (hmem : c0 ∈ l)
    (hw : isWS c0 = false) : c0 ∈ stripL l := by
  induction l with
  | nil => cases hmem
  | cons c cs ih =>
    cases hc : isWS c with
    | true =>
      rcases List.mem_cons.mp hmem with rfl | hmem'
      · rw [hc] at hw; cases hw
      · simp only [stripL, List.dropWhile_cons, hc, if_true]
        exact ih hmem'
    | false =>
      simp only [stripL, List.dropWhile_cons, hc]
      simpa using hmem

theorem mem_stripR_of_nonWS (l : List Char) (c0 : Char) (hmem : c0 ∈ l)
    (hw : isWS c0 = false) : c0 ∈ stripR l := by
  induction l with
  | nil => cases hmem
  | cons c cs ih =>
    rcases List.mem_cons.mp hmem with rfl | hmem'
    · cases hr : stripR cs with
      | nil =>
        rw [stripR_cons, hr, hw]
        simp
      | cons x xs =>
        rw [stripR_cons, hr]
        exact List.mem_cons_self _ _
    · have hrec := ih hmem'
      cases hr : stripR cs with
      | nil => rw [hr] at hrec; cases hrec
      | cons x xs =>
        rw [stripR_cons, hr]
        rw [hr] at hrec
        exact List.mem_cons_of_mem c hrec

theorem mem_pyStrip_of_nonWS (l : List Char) (c0 : Char) (hmem : c0 ∈ l)
    (hw : isWS c0 = false) : c0 ∈ pyStrip l :=
  mem_stripR_of_nonWS _ _ (mem_stripL_of_nonWS l c0 hmem hw) hw

theorem noTrailWS_of_all_nonWS (l : List Char) (h : ∀ c ∈ l, isWS c = false) :
    noTrailWS l := by
  induction l with
  | nil => trivial
  | cons c cs ih =>
    cases cs with
    | nil => exact h c (List.mem_cons_self c [])
    | cons c2 cs2 =>
      exact ih (fun x hx => h x (List.mem_cons_of_mem c hx))

theorem pyStrip_of_all_nonWS (l : List Char) (h : ∀ c ∈ l, isWS c = false) :
    pyStrip l = l := by
  have hL : stripL l = l := by
    cases l with
    | nil => rfl
    | cons c cs =>
      have hw := h c (List.mem_cons_self c cs)
      simp [stripL, List.dropWhile_cons, hw]
  rw [pyStrip, hL]
  exact stripR_of_noTrailWS l (noTrailWS_of_all_nonWS l h)

theorem pyInt_none_of_sep (s : List Char) (hsep : '.' ∈ s ∨ ',' ∈ s) :
    pyInt s = none := by
  obtain ⟨c0, hmem, hd, hu, hplus, hminus, hw⟩ :
      ∃ c0, c0 ∈ s ∧ isDigitC c0 = false ∧ c0 ≠ '_' ∧ c0 ≠ '+' ∧ c0 ≠ '-' ∧
        isWS c0 = false := by
    rcases hsep with h | h
    · exact ⟨'.', h, by decide, by decide, by decide, by decide, by decide⟩
    · exact ⟨',', h, by decide, by decide, by decide, by decide, by decide⟩
  have hmem' : c0 ∈ pyStrip s := mem_pyStrip_of_nonWS s c0 hmem hw
  cases hps : pyStrip s with
  | nil => rw [hps] at hmem'; cases hmem'
  | cons c rest =>
    rw [hps] at hmem'
    by_cases hp : c = '+'
    · have : c0 ∈ rest := by
        rcases List.mem_cons.mp hmem' with rfl | hm
        · exact absurd hp hplus
        · exact hm
      simp [pyInt, hps, hp, digU_none_of_bad rest c0 this hd hu]
    · by_cases hm : c = '-'
      · have : c0 ∈ rest := by
          rcases List.mem_cons.mp hmem' with rfl | hmm
          · exact absurd hm hminus
          · exact hmm
        simp [pyInt, hps, hp, hm, digU_none_of_bad rest c0 this hd hu]
      · simp [pyInt, hps, hp, hm, digU_none_of_bad (c :: rest) c0 hmem' hd hu]

theorem pyInt_all_digits (s : List Char) (hne : s ≠ [])
    (hdig : ∀ c ∈ s, isDigitC c = true) :
    pyInt s = some (Int.ofNat (digitsToNat s)) := by
  have hps : pyStrip s = s :=
    pyStrip_of_all_nonWS s (fun c hc => isWS_eq_false_of_isDigitC c (hdig c hc))
  cases s with
  | nil => exact absurd rfl hne
  | cons c cs =>
    have hd : isDigitC c = true := hdig c (List.mem_cons_self c cs)
    have hp : c ≠ '+' := by rintro rfl; exact absurd hd (by decide)
    have hm : c ≠ '-' := by rintro rfl; exact absurd hd (by decide)
    rw [pyInt, hps]
    simp only [hp, hm, if_false]
    rw [show digU (c :: cs) = digUAux (c.toNat - 48) false cs from by
      simp [digU, hd]]
    rw [digUAux_digits cs _ (fun x hx => hdig x (List.mem_cons_of_mem c hx))]
    simp [digitsToNat]

/-- Claim C9: the normalization used on every captured value (strip, then
collapse every whitespace run to a single space) is idempotent: applying it
to an already-normalized value returns that value unchanged. -/
theorem claim_c9_normalization_idempotent :
    ∀ s : List Char, pyNormalize (pyNormalize s) = pyNormalize s :=
  pyNormalize_idem_aux

/-- Claim C5, counterexample: a span whose identity field resolved to the
non-null empty string (and whose credit field is null) is dropped, although
the claim's acceptance law ("record appears iff an anchor field resolved to
a non-null value") says it must appear: Python truthiness treats the empty
string like `None`. -/
theorem claim_c5_counterexample :
    (resolvedFields [] (some [])).modul_name = some [] ∧
    (some ([] : List Char)).isSome = true ∧
    extract_module_info [] (some []) = none := by
  decide

/-- Claim C5, amended: a record appears in the output iff the
module-identity field or the credit field resolved to a *truthy* value,
i.e. a non-null, non-empty string (Python `or` on the field values). -/
theorem claim_c5_amended :
    ∀ (block : List Char) (d : Option (List Char)),
      (extract_module_info block d).isSome = true ↔
        (truthyS (resolvedFields block d).modul_name = true ∨
         truthyS (resolvedFields block d).ects = true) := by
  intro block d
  by_cases h : (truthyS (resolvedFields block d).modul_name
      || truthyS (resolvedFields block d).ects) = true
  · simp only [extract_module_info, if_pos h, Option.isSome_some, true_iff]
    simpa [Bool.or_eq_true] using h
  · simp only [extract_module_info, if_neg h, Option.isSome_none,
      Bool.false_eq_true, false_iff]
    simpa [Bool.or_eq_true] using h

/-- Claim C7: the records returned by `find_module_blocks` are in
non-decreasing order of the start position of the span each record was
extracted from, and the output is exactly the assembly-order projection
(no re-sorting after assembly). -/
theorem claim_c7_output_ordered :
    ∀ text : List Char,
      find_module_blocks text = (findModuleBlocksPos text).map Prod.snd ∧
      ((findModuleBlocksPos text).map Prod.fst).Sorted (· ≤ ·) := by
  intro text
  refine ⟨rfl, ?_⟩
  have h1 := sortByPos_sorted (potentialStarts text)
  have h2 : ((sortByPos (potentialStarts text)).map Candidate.position).Sorted
      (· ≤ ·) := List.pairwise_map.mpr h1
  exact List.Pairwise.sublist
    (assemble_map_fst_sublist text (sortByPos (potentialStarts text))) h2

/-- Claim C10: every record returned by `find_module_blocks` has a non-None
module-identity field: both strategies seed `modul_name` with a captured
string before pattern evaluation, and patterns only overwrite it with a
non-empty string. -/
theorem claim_c10_identity_never_none :
    ∀ (text : List Char) (mi : ModuleInfo), mi ∈ find_module_blocks text →
      mi.modul_name.isSome = true := by
  intro text mi hmem
  obtain ⟨pr, hpr, rfl⟩ := List.mem_map.mp hmem
  exact assemble_name_isSome text _ pr hpr

/-- Witness for C10 at a concrete text: the degenerate first record of
`textC3` is in the output and its identity field is non-None. -/
theorem claim_c10_witness :
    miLA ∈ find_module_blocks textC3 ∧ miLA.modul_name.isSome = true :=
  ⟨by decide, claim_c10_identity_never_none textC3 miLA (by decide)⟩

/-- Claim C3, counterexample: on `textC3` the direct-marker and
proximity-marker strategies both fire at position 0, the first derived span
is the zero-length span `[0, 0)`, and extraction over that empty span is
*accepted* (the seed name pre-fills the identity field), producing a
degenerate record — the acceptance predicate does not reject it. -/
theorem claim_c3_counterexample :
    (sortByPos (potentialStarts textC3)).map Candidate.position = [0, 0] ∧
    extract_module_info [] (some (chars "Lineare Algebra")) = some miLA ∧
    (findModuleBlocksPos textC3).map Prod.fst = [0, 0] ∧
    (find_module_blocks textC3).map (fun mi => (mi.modul_name, mi.ects)) =
      [(some (chars "Lineare Algebra"), none),
       (some (chars "Lineare Algebra"), some (chars "9"))] := by
  decide

/-- Claim C3, amended: a zero-length span yields an accepted record exactly
when its seed name is non-empty (the seed pre-fills the identity field and
no pattern can match in the empty span); it is rejected only for an empty
seed. -/
theorem claim_c3_amended :
    ∀ d : List Char,
      extract_module_info [] (some d) =
        if d.isEmpty then none
        else some { modul_name := some d, ects := none, semester := none,
                    veranstaltungsart := none, sprache := none,
                    voraussetzungen := none, inhalte := none,
                    lernziele := none, pruefung := none, raw_text := [] } := by
  intro d
  cases d with
  | nil => decide
  | cons c cs =>
    have h1 : tryPatterns [] modulNamePatterns = none := by decide
    have h2 : tryPatterns [] ectsPatterns = none := by decide
    have h3 : tryPatterns [] semesterPatterns = none := by decide
    have h4 : tryPatterns [] veranstaltungsartPatterns = none := by decide
    have h5 : tryPatterns [] sprachePatterns = none := by decide
    have h6 : tryPatterns [] voraussetzungenPatterns = none := by decide
    have h7 : tryPatterns [] inhaltePatterns = none := by decide
    have h8 : tryPatterns [] lernzielePatterns = none := by decide
    have h9 : tryPatterns [] pruefungPatterns = none := by decide
    simp [extract_module_info, resolvedFields, h1, h2, h3, h4, h5, h6, h7, h8,
      h9, truthyS]

/-- Claim C1, counterexample: the credit value `"7,5"` is captured and
retained in full by the extractor (no truncation to the integer part), and
the downstream integer coercion of `rdf_builder` fails on it, yielding
`none` — not the integer `7` that the claim requires. -/
theorem claim_c1_counterexample :
    (extract_module_info (chars "ECTS: 7,5") none).map ModuleInfo.ects =
      some (some (chars "7,5")) ∧
    parseEcts (some (chars "7,5")) = none ∧
    parseEcts (some (chars "7,5")) ≠ some 7 := by
  decide

/-- Claim C1, amended: the extractor keeps the full matched numeral string;
the downstream `int()` coercion yields `none` for every value containing a
`'.'` or `','` separator (fractional values are dropped, not truncated),
and the exact integer for every pure-digit value. -/
theorem claim_c1_amended :
    (∀ s : List Char, ('.' ∈ s ∨ ',' ∈ s) → parseEcts (some s) = none) ∧
    (∀ s : List Char, s ≠ [] → (∀ c ∈ s, isDigitC c = true) →
      parseEcts (some s) = some (Int.ofNat (digitsToNat s))) := by
  constructor
  · intro s h
    have hne : s ≠ [] := by
      rcases h with h | h <;> exact List.ne_nil_of_mem h
    cases s with
    | nil => exact absurd rfl hne
    | cons c cs => simp [parseEcts, pyInt_none_of_sep _ h]
  · intro s hne hdig
    cases s with
    | nil => exact absurd rfl hne
    | cons c cs => simp [parseEcts, pyInt_all_digits _ hne hdig]

/-- Witness for the amended C1 at the concrete inputs `"7,5"` and `"9"`. -/
theorem claim_c1_witness :
    ((('.' : Char) ∈ chars "7,5" ∨ (',' : Char) ∈ chars "7,5") ∧
      parseEcts (some (chars "7,5")) = none) ∧
    ((chars "9" ≠ [] ∧ ∀ c ∈ chars "9", isDigitC c = true) ∧
      parseEcts (some (chars "9")) = some (Int.ofNat (digitsToNat (chars "9")))) :=
  ⟨⟨by decide, claim_c1_amended.1 (chars "7,5") (by decide)⟩,
   ⟨⟨by decide, by decide⟩,
    claim_c1_amended.2 (chars "9") (by decide) (by decide)⟩⟩

/-- Claim C2, counterexample: the two-module scenario text yields four
records, not the two the claim requires — each module also contributes a
degenerate duplicate record from the boundaries that coincide at its start. -/
theorem claim_c2_counterexample :
    (find_module_blocks textC2).length = 4 ∧
    (find_module_blocks textC2).length ≠ 2 := by
  decide

/-- Claim C2, amended: the scenario text yields exactly four records in
span order: two degenerate records with identity `"Lineare Algebra"` and
null credits (from the three boundaries that coincide at position 0),
then `("Lineare Algebra", 9)` and `("Analysis", 6)`. -/
theorem claim_c2_amended :
    (find_module_blocks textC2).map (fun mi => (mi.modul_name, mi.ects)) =
      [(some (chars "Lineare Algebra"), none),
       (some (chars "Lineare Algebra"), none),
       (some (chars "Lineare Algebra"), some (chars "9")),
       (some (chars "Analysis"), some (chars "6"))] ∧
    (findModuleBlocksPos textC2).map Prod.fst = [0, 0, 0, 35] := by
  decide

/-- Claim C6, counterexample: both patterns of the `sprache` field match in
`blockC6`, yet the field's value is P2's capture `"Deutsch"`, not P1's —
P1's match normalizes to the empty string, so the loop falls through to the
lower-priority pattern, violating unconditional first-match-wins. -/
theorem claim_c6_counterexample :
    (searchCap (matchLineAt (kwSimple (chars "sprache"))) blockC6).isSome = true ∧
    (searchCap (matchLineAt (kwSimple (chars "language"))) blockC6).isSome = true ∧
    (searchCap (matchLineAt (kwSimple (chars "sprache"))) blockC6).map pyNormalize =
      some [] ∧
    (extract_module_info blockC6 none).map ModuleInfo.sprache =
      some (some (chars "Deutsch")) := by
  decide

/-- Claim C6, amended: for a field with pattern list `[P1, P2]`, if P1
matches and its normalized capture is non-empty, the field's value is P1's
normalized capture; if P1 matches but its capture normalizes to the empty
string, the loop continues with P2 alone. -/
theorem claim_c6_amended :
    (∀ (P1 P2 : Pattern) (block cap1 : List Char),
      searchCap P1 block = some cap1 → (pyNormalize cap1).isEmpty = false →
      tryPatterns block [P1, P2] = some (pyNormalize cap1)) ∧
    (∀ (P1 P2 : Pattern) (block cap1 : List Char),
      searchCap P1 block = some cap1 → (pyNormalize cap1).isEmpty = true →
      tryPatterns block [P1, P2] = tryPatterns block [P2]) := by
  constructor
  · intro P1 P2 block cap1 h1 h2
    simp [tryPatterns, h1, h2]
  · intro P1 P2 block cap1 h1 h2
    simp [tryPatterns, h1, h2]

/-- Witness for the amended C6: with P1 the `Sprache` pattern matching
`"Englisch"` (non-empty after normalization), the field resolves to P1's
value even though P2 (`Language`) is present in the list. -/
theorem claim_c6_witness :
    (searchCap (matchLineAt (kwSimple (chars "sprache")))
        (chars "Sprache: Englisch") = some (chars "Englisch") ∧
      (pyNormalize (chars "Englisch")).isEmpty = false) ∧
    tryPatterns (chars "Sprache: Englisch")
        [matchLineAt (kwSimple (chars "sprache")),
         matchLineAt (kwSimple (chars "language"))] =
      some (pyNormalize (chars "Englisch")) :=
  ⟨⟨by decide, by decide⟩,
   claim_c6_amended.1 (matchLineAt (kwSimple (chars "sprache")))
     (matchLineAt (kwSimple (chars "language")))
     (chars "Sprache: Englisch") (chars "Englisch") (by decide) (by decide)⟩

set_option maxRecDepth 16384

set_option maxHeartbeats 3200000

/-- Claim C4, counterexample: for the ECTS occurrence at position 18 of
`textC4`, the backward window holds two direct markers — at offsets 0
(name `"A"`) and 9 (name `"B"`).  The marker at offset 9 is strictly
closer to the secondary marker, yet the emitted candidate sits at
position 0 with seed `"A"`: `re.search` picks the *leftmost* match in the
window, not the nearest one, so the candidate is not at the nearest
preceding direct marker. -/
theorem claim_c4_counterexample :
    ectsMatches textC4 = [(18, chars "5")] ∧
    proxOf textC4 18 = some ⟨0, StartType.ects_near_modul, chars "A"⟩ ∧
    matchModulAt ((window textC4 18).drop 9) = some (chars "B", 8) ∧
    (9 : Nat) > 0 := by
  refine ⟨by decide, by decide, by decide, by decide⟩

/-- Claim C4, amended: for every ECTS occurrence, the proximity strategy
emits a candidate iff the direct-marker pattern matches somewhere in the
500-character backward window; the candidate sits at the *earliest*
(leftmost) such match — no direct marker matches at any smaller offset —
and carries that match's stripped capture as seed; with no window match,
no candidate is emitted. -/
theorem claim_c4_amended :
    (∀ (text : List Char) (occ : Nat) (c : Candidate),
      proxOf text occ = some c →
        c.ctype = StartType.ects_near_modul ∧
        ∃ i g n, matchModulAt ((window text occ).drop i) = some (g, n) ∧
          c.position = (occ - 500) + i ∧ c.name = pyStrip g ∧
          ∀ j < i, matchModulAt ((window text occ).drop j) = none) ∧
    (∀ (text : List Char) (occ : Nat), proxOf text occ = none →
      ∀ j, matchModulAt ((window text occ).drop j) = none) := by
  constructor
  · intro text occ c h
    cases hs : searchFirst matchModulAt ((window text occ).length + 1)
        (window text occ) 0 with
    | none =>
      unfold proxOf at h
      rw [hs] at h
      exact Option.noConfusion h
    | some pr =>
      obtain ⟨i, g⟩ := pr
      unfold proxOf at h
      rw [hs] at h
      have hc := Option.some.inj h
      subst hc
      obtain ⟨-, ⟨n, hpn⟩, hnone⟩ :=
        searchFirst_some_spec matchModulAt ((window text occ).length + 1)
          (window text occ) 0 i g (by omega) hs
      rw [Nat.sub_zero] at hpn hnone
      exact ⟨rfl, i, g, n, hpn, rfl, rfl, hnone⟩
  · intro text occ h j
    cases hs : searchFirst matchModulAt ((window text occ).length + 1)
        (window text occ) 0 with
    | some pr =>
      obtain ⟨i, g⟩ := pr
      unfold proxOf at h
      rw [hs] at h
      exact Option.noConfusion h
    | none =>
      exact searchFirst_none_spec matchModulAt rfl
        ((window text occ).length + 1) (window text occ) 0 (by omega) hs j

/-- Witness for the amended C4 at `textC4`, occurrence 18: the emitted
candidate is characterised by the leftmost window match. -/
theorem claim_c4_witness :
    proxOf textC4 18 = some ⟨0, StartType.ects_near_modul, chars "A"⟩ ∧
    ((⟨0, StartType.ects_near_modul, chars "A"⟩ : Candidate).ctype =
        StartType.ects_near_modul ∧
      ∃ i g n, matchModulAt ((window textC4 18).drop i) = some (g, n) ∧
        (⟨0, StartType.ects_near_modul, chars "A"⟩ : Candidate).position =
          (18 - 500) + i ∧
        (⟨0, StartType.ects_near_modul, chars "A"⟩ : Candidate).name =
          pyStrip g ∧
        ∀ j < i, matchModulAt ((window textC4 18).drop j) = none) :=
  ⟨by decide, claim_c4_amended.1 textC4 18 _ (by decide)⟩

/-- Claim C8: an unreadable input is fatal only for its own document.
`extract_from_pdf` never raises: a missing file and a failed text
extraction both produce a per-document result object with the error field
set, and the batch loop maps every document — including failed ones — to
exactly one result entry, so sibling documents continue to be processed. -/
theorem claim_c8_per_document_errors :
    (∀ docs : List (List Char × PdfSource),
      (run_pdf_extraction docs).map Prod.fst = docs.map Prod.fst) ∧
    (∀ (docs : List (List Char × PdfSource)) (d : List Char × PdfSource),
      d ∈ docs → (d.1, extract_from_pdf d.1 d.2) ∈ run_pdf_extraction docs) ∧
    (∀ p : List Char,
      (extract_from_pdf p PdfSource.missing).error.isSome = true) ∧
    (∀ p m : List Char,
      (extract_from_pdf p (PdfSource.unreadable m)).error.isSome = true) ∧
    (∀ p t : List Char,
      (extract_from_pdf p (PdfSource.ok t)).error = none ∧
      (extract_from_pdf p (PdfSource.ok t)).modules =
        some (find_module_blocks t)) := by
  refine ⟨?_, ?_, ?_, ?_, ?_⟩
  · intro docs
    simp [run_pdf_extraction, List.map_map, Function.comp]
  · intro docs d hd
    exact List.mem_map_of_mem _ hd
  · intro p; rfl
  · intro p m; rfl
  · intro p t; exact ⟨rfl, rfl⟩

/-- Witness for C8 with a concrete two-document batch: the failed document
contributes its own entry to the batch result. -/
theorem claim_c8_witness :
    (chars "a.pdf", PdfSource.missing) ∈ docsC8 ∧
    ((chars "a.pdf"),
      extract_from_pdf (chars "a.pdf") PdfSource.missing) ∈
        run_pdf_extraction docsC8 :=
  ⟨by decide,
   claim_c8_per_document_errors.2.1 docsC8
     (chars "a.pdf", PdfSource.missing) (by decide)⟩
